import Mathlib

/-
  Verification of the shader build runner (src/shader_src/compile_shaders.py).

  The script is embedded shallowly:
  - a filesystem state `FS` records regular files (path to metadata, where
    metadata is abstract content plus modification and access timestamps)
    and the set of existing directories;
  - `pySuffix` / `pyStem` / `pyWithSuffix` model Python pathlib's `suffix`,
    `stem` and `with_suffix` on a file name (split at the last dot, which
    must be neither the first nor the last character to count);
  - `compile_shader` models the function of the same name: build the output
    path under `../res/shaders`, create the directory tree, and invoke the
    external compiler unless the output exists with a modification time
    exactly equal to the source's; after a successful compile, `os.utime`
    rewrites the output's modification time to the source's;
  - the external compiler (`glslangValidator`, reached via
    `subprocess.check_call`) is a parameter `Compiler`: given source and
    output paths it yields an exit code and optionally the file it leaves
    at the output path;
  - `globShaders` models `cwd.glob('**/*.glsl')`: files strictly below
    `cwd` whose name ends in `.glsl`; pathlib's glob is fnmatch-based, so
    hidden (dot-prefixed) files are matched and `**` descends into hidden
    directories, and the model places no condition on the components;
  - `run` models the top level: the working-directory assertion (line 9),
    the probe `subprocess.call('glslangValidator', ...)` (line 10) -- which
    ignores the probe's exit status but raises if the executable cannot be
    found -- and the loop over `itertools.chain` of the two identical
    globs (lines 27-28).
-/

namespace DTH

/-- A path component (a file or directory name), as a list of characters. -/
abbrev Name := List Char

/-- A filesystem path: the list of components from the root. -/
abbrev Path := List Name

/-- Metadata of a regular file: abstract content, modification time, access time. -/
structure FileMeta where
  data : Nat
  mtime : Int
  atime : Int
deriving DecidableEq, Repr

/-- Filesystem state: regular files as an association list, and existing directories. -/
structure FS where
  files : List (Path × FileMeta)
  dirs : List Path
deriving DecidableEq, Repr

/-- Look a path up in a file association list. -/
def getEntry (p : Path) : List (Path × FileMeta) → Option FileMeta
  | [] => none
  | e :: rest => if e.1 = p then some e.2 else getEntry p rest

/-- Write a file into an association list: replace the entry in place, or append. -/
def setEntry (p : Path) (m : FileMeta) : List (Path × FileMeta) → List (Path × FileMeta)
  | [] => [(p, m)]
  | e :: rest => if e.1 = p then (p, m) :: rest else e :: setEntry p m rest

/-- Metadata of the regular file at `p`, if it exists. -/
def FS.getFile (fs : FS) (p : Path) : Option FileMeta := getEntry p fs.files

/-- Write (create or overwrite) the regular file at `p`. -/
def FS.setFile (fs : FS) (p : Path) (m : FileMeta) : FS :=
  { fs with files := setEntry p m fs.files }

/-- Add a directory to the directory set if it is not already present. -/
def insertDir (p : Path) (ds : List Path) : List Path := if p ∈ ds then ds else p :: ds

/-- All ancestors of a path, the path itself and the root included. -/
def ancestorsOf (p : Path) : List Path := (List.range (p.length + 1)).map fun k => p.take k

/-- Model of `p.mkdir(parents=True, exist_ok=True)`: create `p` and all ancestors. -/
def mkdirParents (fs : FS) (p : Path) : FS :=
  { fs with dirs := (ancestorsOf p).foldl (fun a q => insertDir q a) fs.dirs }

/-- Index of the last occurrence of `c` in a name (Python `str.rfind`). -/
def rfindIdx (c : Char) : Name → Option Nat
  | [] => none
  | a :: rest =>
    match rfindIdx c rest with
    | some i => some (i + 1)
    | none => if a = c then some (0 : Nat) else none

/-- Model of pathlib `PurePath.suffix` on a file name: the part from the last dot,
provided that dot is neither the first nor the last character; `[]` otherwise. -/
def pySuffix (n : Name) : Name :=
  match rfindIdx '.' n with
  | some i => if 0 < i ∧ i + 1 < n.length then n.drop i else []
  | none => []

/-- Model of pathlib `PurePath.stem`-style truncation used by `with_suffix`:
the name with `pySuffix` removed. -/
def pyStem (n : Name) : Name :=
  match rfindIdx '.' n with
  | some i => if 0 < i ∧ i + 1 < n.length then n.take i else n
  | none => n

/-- Model of pathlib `PurePath.with_suffix`: replace `pySuffix` by `suf`. -/
def pyWithSuffix (n suf : Name) : Name := pyStem n ++ suf

/-- A matched shader source, given by its path relative to `cwd`:
directory components and file name. -/
structure Src where
  dirs : List Name
  name : Name
deriving DecidableEq, Repr

/-- The path component `res`. -/
def resDir : Name := ['r', 'e', 's']

/-- The path component `shaders`. -/
def shadersDir : Name := ['s', 'h', 'a', 'd', 'e', 'r', 's']

/-- The characters of the extension `.spv`. -/
def spvExt : Name := ['.', 's', 'p', 'v']

/-- The characters of the extension `.glsl`. -/
def glslExt : Name := ['.', 'g', 'l', 's', 'l']

/-- Absolute path of a matched source file: `cwd / dirs / name`. -/
def srcPath (cwd : Path) (s : Src) : Path := cwd ++ s.dirs ++ [s.name]

/-- Output file name, line 16: `out_path.with_suffix(out_path.suffix + '.spv')`. -/
def outName (s : Src) : Name := pyWithSuffix s.name (pySuffix s.name ++ spvExt)

/-- Output path, lines 15-16: `cwd.parent/'res'/'shaders'/rel_path`, with the
`.spv`-extended name. `cwd.parent` is `dropLast` (pathlib's parent of the root
is the root itself, matching `dropLast` on `[]`). -/
def outPath (cwd : Path) (s : Src) : Path :=
  cwd.dropLast ++ [resDir, shadersDir] ++ s.dirs ++ [outName s]

/-- The external compiler: given source and output paths, yields the exit code
and the file it leaves at the output path (`none` = output untouched). -/
def Compiler := Path → Path → Int × Option FileMeta

/-- Errors that abort the run: the working-directory assertion (line 9), the
probe's FileNotFoundError (line 10), `os.path.getmtime` on a missing source,
`subprocess.check_call` raising on a non-zero exit, and `os.path.getatime` on
a missing output after a compile. -/
inductive BuildError where
  | configError
  | execNotFound
  | missingSource
  | compileError
  | missingOutput
deriving DecidableEq, Repr

/-- Outcome of a (partial) run: the filesystem state and the number of compiler
invocations, either after normal completion or at the uncaught error. -/
inductive Result where
  | ok (fs : FS) (calls : Nat)
  | error (e : BuildError) (fs : FS) (calls : Nat)
deriving DecidableEq, Repr

/-- Number of compiler invocations recorded in a result. -/
def Result.calls : Result → Nat
  | .ok _ n => n
  | .error _ _ n => n

/-- Line 21 condition: `not out_path.exists() or modified_time != getmtime(out_path)`,
with the short-circuit (the output's mtime is only read when the output exists). -/
def staleCheck (srcMtime : Int) : Option FileMeta → Bool
  | none => true
  | some mout => decide (srcMtime ≠ mout.mtime)

/-- Lines 22-24: invoke the compiler (`subprocess.check_call`), then on exit 0
rewrite the output's modification time to the source's
(`os.utime(out_path, (getatime(out_path), modified_time))`). -/
def compileInvoke (comp : Compiler) (cwd : Path) (fs : FS) (s : Src) (msrc : FileMeta) :
    Result :=
  let r := comp (srcPath cwd s) (outPath cwd s)
  let fs1 := match r.2 with
    | some w => fs.setFile (outPath cwd s) w
    | none => fs
  if r.1 ≠ 0 then .error .compileError fs1 1
  else
    match fs1.getFile (outPath cwd s) with
    | none => .error .missingOutput fs1 1
    | some w => .ok (fs1.setFile (outPath cwd s) ⟨w.data, msrc.mtime, w.atime⟩) 1

/-- Lines 13-24, `compile_shader`: build the output path, create its directory
tree, then compile unless the output exists with the source's mtime. -/
def compile_shader (comp : Compiler) (cwd : Path) (fs : FS) (s : Src) : Result :=
  let fs0 := mkdirParents fs (outPath cwd s).dropLast
  match fs0.getFile (srcPath cwd s) with
  | none => .error .missingSource fs0 0
  | some msrc =>
    if staleCheck msrc.mtime (fs0.getFile (outPath cwd s)) then
      compileInvoke comp cwd fs0 s msrc
    else .ok fs0 0

/-- Add `c` to the invocation count of a result. -/
def addCalls (c : Nat) : Result → Result
  | .ok fs n => .ok fs (c + n)
  | .error e fs n => .error e fs (c + n)

/-- Lines 27-28 loop body over a list of matched sources: process each in turn,
halting at the first uncaught error. -/
def runFiles (comp : Compiler) (cwd : Path) (fs : FS) : List Src → Result
  | [] => .ok fs 0
  | s :: rest =>
    match compile_shader comp cwd fs s with
    | .ok fs1 c => addCalls c (runFiles comp cwd fs1 rest)
    | .error e fs1 c => .error e fs1 c

/-- Whether `suf` is a suffix of `l`. -/
def hasSuffix (l suf : Name) : Bool :=
  decide (suf.length ≤ l.length ∧ l.drop (l.length - suf.length) = suf)

/-- Whether a relative path (directories plus name) matches `**/*.glsl`.
Pathlib's glob is fnmatch-based: `**` matches any chain of directory
components and `*` any name, hidden (dot-prefixed) entries included, so the
pattern constrains only the name's `.glsl` suffix and the directory
components are unconstrained. -/
def globMatch (_ds : List Name) (n : Name) : Bool :=
  hasSuffix n glslExt

/-- Split `p` as `cwd / ds / n` when `p` lies strictly below `cwd`. -/
def relUnder (cwd p : Path) : Option (List Name × Name) :=
  if p.take cwd.length = cwd then
    match p.drop cwd.length with
    | [] => none
    | r :: rs => some ((r :: rs).dropLast, (r :: rs).getLast (List.cons_ne_nil r rs))
  else none

/-- The source descriptor of `p`, when `p` matches `cwd.glob('**/*.glsl')`. -/
def toSrcOpt (cwd : Path) (p : Path) : Option Src :=
  match relUnder cwd p with
  | some (ds, n) => if globMatch ds n then some ⟨ds, n⟩ else none
  | none => none

/-- Line 27 enumeration: the files of `fs` matching `cwd.glob('**/*.glsl')`. -/
def globShaders (cwd : Path) (fs : FS) : List Src := fs.files.filterMap fun e => toSrcOpt cwd e.1

/-- The process environment seen by the startup probe: whether the compiler
executable is on the search path, and the exit code the probe would return. -/
structure Env where
  compilerOnPath : Bool
  probeExit : Int
deriving DecidableEq, Repr

/-- Lines 8-10 and 27-28, the whole script: assert the working directory is the
script's own directory, probe for the compiler executable with
`subprocess.call` (the returned exit status `env.probeExit` is discarded, but a
missing executable raises FileNotFoundError), then process the chain of the two
identical glob enumerations. -/
def run (env : Env) (comp : Compiler) (scriptDir cwd : Path) (fs : FS) : Result :=
  if cwd = scriptDir then
    if env.compilerOnPath then
      runFiles comp cwd fs (globShaders cwd fs ++ globShaders cwd fs)
    else .error .execNotFound fs 0
  else .error .configError fs 0

/-- The source and its output both exist and their modification times agree. -/
def UpToDate (cwd : Path) (fs : FS) (s : Src) : Prop :=
  ∃ msrc mout, fs.getFile (srcPath cwd s) = some msrc ∧
    fs.getFile (outPath cwd s) = some mout ∧ mout.mtime = msrc.mtime

/-- Every ancestor directory of the output path already exists. -/
def DirsReady (cwd : Path) (fs : FS) (s : Src) : Prop :=
  ∀ q ∈ ancestorsOf (outPath cwd s).dropLast, q ∈ fs.dirs

/-- Invariant established for a source after a successful pass over it. -/
def Good (cwd : Path) (fs : FS) (s : Src) : Prop := UpToDate cwd fs s ∧ DirsReady cwd fs s

end DTH

namespace DTH

/-- Concrete working directory used by the evaluation witnesses. -/
def cwdW : Path := [['d'], ['w']]

/-- A directory different from `cwdW`, for the wrong-directory witness. -/
def cwdBadW : Path := [['x']]

/-- A top-level source file `a.glsl`. -/
def sW : Src := ⟨[], ['a', '.', 'g', 'l', 's', 'l']⟩

/-- A nested source file `sub/b.glsl`. -/
def sW2 : Src := ⟨[['s', 'u', 'b']], ['b', '.', 'g', 'l', 's', 'l']⟩

/-- Metadata of the witness source file. -/
def mSrcW : FileMeta := ⟨0, 3, 4⟩

/-- A compiler stub that succeeds and writes a fresh output file. -/
def compOkW : Compiler := fun _ _ => (0, some ⟨7, 11, 13⟩)

/-- A compiler stub that writes a partial output file and exits with code 2. -/
def compFailW : Compiler := fun _ _ => (2, some ⟨5, 21, 22⟩)

/-- An environment in which the compiler executable is present and the probe
would return a non-zero exit status. -/
def envW : Env := ⟨true, 5⟩

/-- Initial state: one source file, no outputs, no directories. -/
def fsW : FS := ⟨[(srcPath cwdW sW, mSrcW)], []⟩

/-- State in which the output exists with the source's modification time. -/
def fsUpW : FS := ⟨[(srcPath cwdW sW, mSrcW), (outPath cwdW sW, ⟨9, 3, 8⟩)], []⟩

/-- State in which the source (mtime 5) is older than its output (mtime 9). -/
def fsOldW : FS := ⟨[(srcPath cwdW sW, ⟨0, 5, 0⟩), (outPath cwdW sW, ⟨0, 9, 0⟩)], []⟩

/-- State with two source files and no outputs. -/
def fsTwoW : FS := ⟨[(srcPath cwdW sW, mSrcW), (srcPath cwdW sW2, ⟨1, 6, 6⟩)], []⟩

/-- The state after a full successful run of the build over `fsW`. -/
def fs1W : FS := ⟨[(srcPath cwdW sW, mSrcW), (outPath cwdW sW, ⟨7, 3, 13⟩)],
  [[['d'], resDir, shadersDir], [['d'], resDir], [['d']], []]⟩

end DTH

namespace DTH

theorem getFile_mkdirParents (fs : FS) (p q : Path) :
    (mkdirParents fs p).getFile q = fs.getFile q := rfl

theorem dirs_setFile (fs : FS) (p : Path) (m : FileMeta) :
    (fs.setFile p m).dirs = fs.dirs := rfl

theorem getEntry_setEntry_self (p : Path) (m : FileMeta) (l : List (Path × FileMeta)) :
    getEntry p (setEntry p m l) = some m := by
  induction l with
  | nil => simp [getEntry, setEntry]
  | cons e rest ih =>
    by_cases h : e.1 = p
    · simp [setEntry, h, getEntry]
    · simp [setEntry, h, getEntry, ih]

theorem getEntry_setEntry_ne (p q : Path) (m : FileMeta) (l : List (Path × FileMeta))
    (h : q ≠ p) : getEntry q (setEntry p m l) = getEntry q l := by
  induction l with
  | nil =>
    simp only [setEntry, getEntry]
    rw [if_neg (fun hh : p = q => h hh.symm)]
  | cons e rest ih =>
    by_cases he : e.1 = p
    · simp only [setEntry, if_pos he, getEntry, he]
      rw [if_neg (fun hh : p = q => h hh.symm), if_neg (fun hh : p = q => h hh.symm)]
    · simp only [setEntry, if_neg he, getEntry]
      split
      · rfl
      · exact ih

theorem setEntry_setEntry (p : Path) (a b : FileMeta) (l : List (Path × FileMeta)) :
    setEntry p b (setEntry p a l) = setEntry p b l := by
  induction l with
  | nil => simp [setEntry]
  | cons e rest ih =>
    by_cases h : e.1 = p
    · simp [setEntry, h]
    · simp [setEntry, h, ih]

theorem getFile_setFile_self (fs : FS) (p : Path) (m : FileMeta) :
    (fs.setFile p m).getFile p = some m := getEntry_setEntry_self p m fs.files

theorem getFile_setFile_ne (fs : FS) (p q : Path) (m : FileMeta) (h : q ≠ p) :
    (fs.setFile p m).getFile q = fs.getFile q := getEntry_setEntry_ne p q m fs.files h

theorem setFile_setFile (fs : FS) (p : Path) (a b : FileMeta) :
    (fs.setFile p a).setFile p b = fs.setFile p b := by
  unfold FS.setFile
  simp [setEntry_setEntry]

theorem pyStem_append_pySuffix (n : Name) : pyStem n ++ pySuffix n = n := by
  unfold pyStem pySuffix
  cases h : rfindIdx '.' n with
  | none => simp
  | some i =>
    by_cases hc : 0 < i ∧ i + 1 < n.length
    · simp [hc, List.take_append_drop]
    · simp [hc]

theorem outName_eq (s : Src) : outName s = s.name ++ spvExt := by
  unfold outName pyWithSuffix
  rw [← List.append_assoc, pyStem_append_pySuffix]

theorem srcPath_getLast (cwd : Path) (s : Src) :
    (srcPath cwd s).getLast? = some s.name := by
  unfold srcPath
  exact List.getLast?_concat _

theorem outPath_getLast (cwd : Path) (s : Src) :
    (outPath cwd s).getLast? = some (outName s) := by
  unfold outPath
  exact List.getLast?_concat _

theorem eq_append_of_hasSuffix {l suf : Name} (h : hasSuffix l suf = true) :
    l = l.take (l.length - suf.length) ++ suf := by
  unfold hasSuffix at h
  rw [decide_eq_true_eq] at h
  conv_lhs => rw [← List.take_append_drop (l.length - suf.length) l]
  rw [h.2]

theorem getLast?_of_hasSuffix_glsl {n : Name} (h : hasSuffix n glslExt = true) :
    n.getLast? = some 'l' := by
  have hd := eq_append_of_hasSuffix h
  conv_lhs => rw [hd]
  rw [List.getLast?_append]
  rfl

theorem getLast?_append_spv (m : Name) : (m ++ spvExt).getLast? = some 'v' := by
  rw [List.getLast?_append]
  rfl

theorem hasSuffix_glsl_append_spv (m : Name) : hasSuffix (m ++ spvExt) glslExt = false := by
  cases h : hasSuffix (m ++ spvExt) glslExt
  · rfl
  · exfalso
    have hl := getLast?_of_hasSuffix_glsl h
    rw [getLast?_append_spv] at hl
    exact absurd hl (by decide)

theorem srcPath_ne_outPath (cwd cwd' : Path) (s t : Src)
    (h : hasSuffix s.name glslExt = true) : srcPath cwd s ≠ outPath cwd' t := by
  intro he
  have h1 := srcPath_getLast cwd s
  rw [he, outPath_getLast] at h1
  have h2 : outName t = s.name := Option.some.inj h1
  rw [outName_eq] at h2
  have hl := getLast?_of_hasSuffix_glsl h
  rw [← h2, getLast?_append_spv] at hl
  exact absurd hl (by decide)

theorem append_singleton_inj {α : Type _} {l₁ l₂ : List α} {a b : α}
    (h : l₁ ++ [a] = l₂ ++ [b]) : l₁ = l₂ ∧ a = b := by
  have hr := congrArg List.reverse h
  simp only [List.reverse_append, List.reverse_singleton, List.singleton_append,
    List.cons.injEq, List.reverse_inj] at hr
  exact ⟨hr.2, hr.1⟩

theorem outPath_inj {cwd : Path} {s t : Src} (h : outPath cwd s = outPath cwd t) :
    s = t := by
  unfold outPath at h
  have h1 := append_singleton_inj h
  have h2 := List.append_cancel_left h1.1
  have h3 := h1.2
  rw [outName_eq, outName_eq] at h3
  have h4 := List.append_cancel_right h3
  cases s
  cases t
  simp_all

end DTH

namespace DTH

theorem mem_insertDir_of_mem {q p : Path} {ds : List Path} (h : q ∈ ds) :
    q ∈ insertDir p ds := by
  unfold insertDir
  split
  · exact h
  · exact List.mem_cons_of_mem _ h

theorem mem_insertDir_self (p : Path) (ds : List Path) : p ∈ insertDir p ds := by
  unfold insertDir
  split
  · assumption
  · exact List.mem_cons_self _ _

theorem mem_foldl_insertDir_of_mem {q : Path} :
    ∀ (l : List Path) (ds : List Path), q ∈ ds →
      q ∈ l.foldl (fun a x => insertDir x a) ds := by
  intro l
  induction l with
  | nil => intro ds h; exact h
  | cons a l ih =>
    intro ds h
    exact ih _ (mem_insertDir_of_mem h)

theorem mem_foldl_insertDir_of_mem_list {q : Path} :
    ∀ (l : List Path) (ds : List Path), q ∈ l →
      q ∈ l.foldl (fun a x => insertDir x a) ds := by
  intro l
  induction l with
  | nil => intro ds h; cases h
  | cons a l ih =>
    intro ds h
    rw [List.foldl_cons]
    rcases List.mem_cons.mp h with rfl | h'
    · exact mem_foldl_insertDir_of_mem _ _ (mem_insertDir_self _ _)
    · exact ih _ h'

theorem foldl_insertDir_of_all_mem :
    ∀ (l : List Path) (ds : List Path), (∀ q ∈ l, q ∈ ds) →
      l.foldl (fun a x => insertDir x a) ds = ds := by
  intro l
  induction l with
  | nil => intro ds _; rfl
  | cons a l ih =>
    intro ds h
    have ha : insertDir a ds = ds := by
      unfold insertDir
      rw [if_pos (h a (List.mem_cons_self _ _))]
    rw [List.foldl_cons, ha]
    exact ih _ fun q hq => h q (List.mem_cons_of_mem _ hq)

theorem mem_dirs_mkdirParents_of_mem {fs : FS} {p q : Path} (h : q ∈ fs.dirs) :
    q ∈ (mkdirParents fs p).dirs :=
  mem_foldl_insertDir_of_mem _ _ h

theorem mem_dirs_mkdirParents_ancestor {fs : FS} {p q : Path} (h : q ∈ ancestorsOf p) :
    q ∈ (mkdirParents fs p).dirs :=
  mem_foldl_insertDir_of_mem_list _ _ h

theorem mkdirParents_eq_self {fs : FS} {p : Path} (h : ∀ q ∈ ancestorsOf p, q ∈ fs.dirs) :
    mkdirParents fs p = fs := by
  unfold mkdirParents
  rw [foldl_insertDir_of_all_mem _ _ h]

theorem compile_shader_skip (comp : Compiler) {cwd : Path} {fs : FS} {s : Src}
    {msrc mout : FileMeta}
    (hsrc : fs.getFile (srcPath cwd s) = some msrc)
    (hout : fs.getFile (outPath cwd s) = some mout)
    (heq : mout.mtime = msrc.mtime) :
    compile_shader comp cwd fs s = .ok (mkdirParents fs (outPath cwd s).dropLast) 0 := by
  simp only [compile_shader, getFile_mkdirParents, hsrc, hout, staleCheck, heq]
  simp

theorem compileInvoke_ok_inv {comp : Compiler} {cwd : Path} {fs : FS} {s : Src}
    {msrc : FileMeta} {fs' : FS} {c : Nat}
    (h : compileInvoke comp cwd fs s msrc = .ok fs' c) :
    c = 1 ∧ ∃ d a, fs' = fs.setFile (outPath cwd s) ⟨d, msrc.mtime, a⟩ := by
  unfold compileInvoke at h
  cases hr : comp (srcPath cwd s) (outPath cwd s) with
  | mk e w =>
    rw [hr] at h
    cases w with
    | some w0 =>
      by_cases he : e = 0
      · subst he
        simp only [ne_eq, not_true_eq_false, reduceIte, getFile_setFile_self] at h
        rw [setFile_setFile] at h
        injection h with h1 h2
        exact ⟨h2.symm, w0.data, w0.atime, h1.symm⟩
      · rw [if_pos (by simpa using he)] at h
        cases h
    | none =>
      by_cases he : e = 0
      · subst he
        simp only [ne_eq, not_true_eq_false, reduceIte] at h
        cases hg : fs.getFile (outPath cwd s) with
        | none => rw [hg] at h; cases h
        | some w1 =>
          rw [hg] at h
          injection h with h1 h2
          exact ⟨h2.symm, w1.data, w1.atime, h1.symm⟩
      · rw [if_pos (by simpa using he)] at h
        cases h

theorem compile_shader_ok_inv {comp : Compiler} {cwd : Path} {fs : FS} {s : Src}
    {fs' : FS} {c : Nat}
    (h : compile_shader comp cwd fs s = .ok fs' c) :
    ∃ msrc, fs.getFile (srcPath cwd s) = some msrc ∧
      ((c = 0 ∧ fs' = mkdirParents fs (outPath cwd s).dropLast ∧
          ∃ mout, fs.getFile (outPath cwd s) = some mout ∧ mout.mtime = msrc.mtime) ∨
        (c = 1 ∧ ∃ d a, fs' = (mkdirParents fs (outPath cwd s).dropLast).setFile
          (outPath cwd s) ⟨d, msrc.mtime, a⟩)) := by
  cases hsrc : fs.getFile (srcPath cwd s) with
  | none =>
    simp only [compile_shader, getFile_mkdirParents, hsrc] at h
    exact Result.noConfusion h
  | some msrc =>
    simp only [compile_shader, getFile_mkdirParents, hsrc] at h
    refine ⟨msrc, rfl, ?_⟩
    by_cases hst : staleCheck msrc.mtime (fs.getFile (outPath cwd s)) = true
    · rw [if_pos hst] at h
      have hi := compileInvoke_ok_inv h
      exact Or.inr hi
    · rw [if_neg hst] at h
      injection h with h1 h2
      cases hout : fs.getFile (outPath cwd s) with
      | none => rw [hout] at hst; exact absurd rfl hst
      | some mout =>
        rw [hout] at hst
        simp only [staleCheck, decide_eq_true_eq] at hst
        push_neg at hst
        exact Or.inl ⟨h2.symm, h1.symm, mout, rfl, hst.symm⟩

end DTH

namespace DTH

theorem compile_frame {comp : Compiler} {cwd : Path} {fs : FS} {s : Src} {fs' : FS} {c : Nat}
    (h : compile_shader comp cwd fs s = .ok fs' c) :
    ∀ q, q ≠ outPath cwd s → fs'.getFile q = fs.getFile q := by
  obtain ⟨msrc, hsrc, hcase⟩ := compile_shader_ok_inv h
  intro q hq
  rcases hcase with ⟨_, hfs, _⟩ | ⟨_, d, a, hfs⟩
  · rw [hfs]
    rfl
  · rw [hfs, getFile_setFile_ne _ _ _ _ hq]
    rfl

theorem compile_dirs {comp : Compiler} {cwd : Path} {fs : FS} {s : Src} {fs' : FS} {c : Nat}
    (h : compile_shader comp cwd fs s = .ok fs' c) :
    fs'.dirs = (mkdirParents fs (outPath cwd s).dropLast).dirs := by
  obtain ⟨msrc, hsrc, hcase⟩ := compile_shader_ok_inv h
  rcases hcase with ⟨_, hfs, _⟩ | ⟨_, d, a, hfs⟩
  · rw [hfs]
  · rw [hfs]
    rfl

theorem compile_dirs_mono {comp : Compiler} {cwd : Path} {fs : FS} {s : Src} {fs' : FS}
    {c : Nat} (h : compile_shader comp cwd fs s = .ok fs' c) :
    ∀ q ∈ fs.dirs, q ∈ fs'.dirs := by
  intro q hq
  rw [compile_dirs h]
  exact mem_dirs_mkdirParents_of_mem hq

theorem good_self {comp : Compiler} {cwd : Path} {fs : FS} {s : Src} {fs' : FS} {c : Nat}
    (hn : hasSuffix s.name glslExt = true)
    (h : compile_shader comp cwd fs s = .ok fs' c) : Good cwd fs' s := by
  obtain ⟨msrc, hsrc, hcase⟩ := compile_shader_ok_inv h
  constructor
  · rcases hcase with ⟨_, hfs, mout, hout, hmt⟩ | ⟨_, d, a, hfs⟩
    · exact ⟨msrc, mout, by rw [hfs]; exact hsrc, by rw [hfs]; exact hout, hmt⟩
    · refine ⟨msrc, ⟨d, msrc.mtime, a⟩, ?_, ?_, rfl⟩
      · rw [hfs, getFile_setFile_ne _ _ _ _ (srcPath_ne_outPath cwd cwd s s hn)]
        exact hsrc
      · rw [hfs]
        exact getFile_setFile_self _ _ _
  · intro q hq
    rw [compile_dirs h]
    exact mem_dirs_mkdirParents_ancestor hq

theorem good_step {comp : Compiler} {cwd : Path} {fs : FS} {s t : Src} {fs' : FS} {c : Nat}
    (hn : hasSuffix s.name glslExt = true)
    (hg : Good cwd fs s)
    (h : compile_shader comp cwd fs t = .ok fs' c) : Good cwd fs' s := by
  obtain ⟨⟨msrc, mout, h1, h2, h3⟩, hd⟩ := hg
  constructor
  · by_cases ho : outPath cwd t = outPath cwd s
    · have hts : t = s := outPath_inj ho
      subst hts
      have hskip := compile_shader_skip comp h1 h2 h3
      rw [hskip] at h
      injection h with h4 h5
      exact ⟨msrc, mout, by rw [← h4]; exact h1, by rw [← h4]; exact h2, h3⟩
    · have hfr := compile_frame h
      refine ⟨msrc, mout, ?_, ?_, h3⟩
      · rw [hfr _ (srcPath_ne_outPath cwd cwd s t hn)]
        exact h1
      · rw [hfr _ fun hh => ho hh.symm]
        exact h2
  · intro q hq
    exact compile_dirs_mono h q (hd q hq)

theorem runFiles_cons_ok_inv {comp : Compiler} {cwd : Path} {fs : FS} {s : Src}
    {l : List Src} {fs1 : FS} {n : Nat}
    (h : runFiles comp cwd fs (s :: l) = .ok fs1 n) :
    ∃ fs' c m, compile_shader comp cwd fs s = .ok fs' c ∧
      runFiles comp cwd fs' l = .ok fs1 m ∧ n = c + m := by
  simp only [runFiles] at h
  cases hc : compile_shader comp cwd fs s with
  | ok fs' c =>
    rw [hc] at h
    dsimp only at h
    cases hr : runFiles comp cwd fs' l with
    | ok fs2 m =>
      rw [hr] at h
      unfold addCalls at h
      injection h with h1 h2
      exact ⟨fs', c, m, rfl, by rw [hr, h1], h2.symm⟩
    | error e fs2 m =>
      rw [hr] at h
      unfold addCalls at h
      exact Result.noConfusion h
  | error e fs' c =>
    rw [hc] at h
    exact Result.noConfusion h

theorem runFiles_good_preserved {comp : Compiler} {cwd : Path} {s : Src}
    (hn : hasSuffix s.name glslExt = true) :
    ∀ {l : List Src} {fs fs1 : FS} {n : Nat}, Good cwd fs s →
      runFiles comp cwd fs l = .ok fs1 n → Good cwd fs1 s := by
  intro l
  induction l with
  | nil =>
    intro fs fs1 n hg h
    simp only [runFiles] at h
    injection h with h1 _
    rw [← h1]
    exact hg
  | cons t l ih =>
    intro fs fs1 n hg h
    obtain ⟨fs', c, m, hc, hr, _⟩ := runFiles_cons_ok_inv h
    exact ih (good_step hn hg hc) hr

theorem runFiles_good {comp : Compiler} {cwd : Path} :
    ∀ {l : List Src} {fs fs1 : FS} {n : Nat},
      (∀ t ∈ l, hasSuffix t.name glslExt = true) →
      runFiles comp cwd fs l = .ok fs1 n → ∀ s ∈ l, Good cwd fs1 s := by
  intro l
  induction l with
  | nil =>
    intro fs fs1 n _ _ s hs
    cases hs
  | cons t l ih =>
    intro fs fs1 n hnames h s hs
    obtain ⟨fs', c, m, hc, hr, _⟩ := runFiles_cons_ok_inv h
    rcases List.mem_cons.mp hs with rfl | hs'
    · exact runFiles_good_preserved (hnames s (List.mem_cons_self _ _))
        (good_self (hnames s (List.mem_cons_self _ _)) hc) hr
    · exact ih (fun t' ht' => hnames t' (List.mem_cons_of_mem _ ht')) hr s hs'

theorem runFiles_all_skip {comp : Compiler} {cwd : Path} :
    ∀ {l : List Src} {fs : FS}, (∀ s ∈ l, Good cwd fs s) →
      runFiles comp cwd fs l = .ok fs 0 := by
  intro l
  induction l with
  | nil => intro fs _; rfl
  | cons s l ih =>
    intro fs h
    obtain ⟨⟨msrc, mout, h1, h2, h3⟩, hd⟩ := h s (List.mem_cons_self _ _)
    have hskip := compile_shader_skip comp h1 h2 h3
    have hmk : mkdirParents fs (outPath cwd s).dropLast = fs := mkdirParents_eq_self hd
    rw [hmk] at hskip
    simp only [runFiles, hskip]
    rw [ih fun t ht => h t (List.mem_cons_of_mem _ ht)]
    rfl

end DTH

namespace DTH

theorem globFiles_setEntry {cwd p : Path} {m : FileMeta} (hp : toSrcOpt cwd p = none) :
    ∀ l : List (Path × FileMeta),
      (setEntry p m l).filterMap (fun e => toSrcOpt cwd e.1) =
        l.filterMap (fun e => toSrcOpt cwd e.1) := by
  intro l
  induction l with
  | nil => simp [setEntry, List.filterMap_cons, hp]
  | cons e rest ih =>
    by_cases he : e.1 = p
    · simp only [setEntry]
      rw [if_pos he]
      simp only [List.filterMap_cons, hp, he]
    · simp only [setEntry]
      rw [if_neg he]
      simp only [List.filterMap_cons, ih]

theorem globShaders_setFile {cwd : Path} {fs : FS} {p : Path} {m : FileMeta}
    (hp : toSrcOpt cwd p = none) :
    globShaders cwd (fs.setFile p m) = globShaders cwd fs :=
  globFiles_setEntry hp fs.files

theorem globShaders_mkdirParents (cwd : Path) (fs : FS) (p : Path) :
    globShaders cwd (mkdirParents fs p) = globShaders cwd fs := rfl

theorem toSrcOpt_outPath (cwd cwd' : Path) (s : Src) :
    toSrcOpt cwd (outPath cwd' s) = none := by
  unfold toSrcOpt relUnder
  by_cases ht : (outPath cwd' s).take cwd.length = cwd
  · rw [if_pos ht]
    cases hd : (outPath cwd' s).drop cwd.length with
    | nil => rfl
    | cons r rs =>
      have hlast : (r :: rs).getLast? = some (outName s) := by
        have h1 := outPath_getLast cwd' s
        rw [← List.take_append_drop cwd.length (outPath cwd' s), hd,
          List.getLast?_append] at h1
        rw [List.getLast?_eq_getLast (r :: rs) (List.cons_ne_nil r rs)] at h1 ⊢
        simp only [Option.or_some] at h1
        exact h1
      have hname : (r :: rs).getLast (List.cons_ne_nil r rs) = outName s := by
        rw [List.getLast?_eq_getLast (r :: rs) (List.cons_ne_nil r rs)] at hlast
        exact Option.some.inj hlast
      have hfalse : globMatch (r :: rs).dropLast ((r :: rs).getLast (List.cons_ne_nil r rs))
          = false := by
        rw [hname]
        unfold globMatch
        rw [outName_eq, hasSuffix_glsl_append_spv]
      simp only [hfalse, Bool.false_eq_true, if_false]
  · rw [if_neg ht]

theorem globShaders_compile {comp : Compiler} {cwd : Path} {fs : FS} {t : Src} {fs' : FS}
    {c : Nat} (h : compile_shader comp cwd fs t = .ok fs' c) :
    globShaders cwd fs' = globShaders cwd fs := by
  obtain ⟨msrc, hsrc, hcase⟩ := compile_shader_ok_inv h
  rcases hcase with ⟨_, hfs, _⟩ | ⟨_, d, a, hfs⟩
  · rw [hfs]
    exact globShaders_mkdirParents cwd fs _
  · rw [hfs]
    rw [show ((mkdirParents fs (outPath cwd t).dropLast).setFile (outPath cwd t)
      ⟨d, msrc.mtime, a⟩) = (FS.setFile (mkdirParents fs (outPath cwd t).dropLast)
      (outPath cwd t) ⟨d, msrc.mtime, a⟩) from rfl]
    rw [globShaders_setFile (toSrcOpt_outPath cwd cwd t)]
    exact globShaders_mkdirParents cwd fs _

theorem globShaders_runFiles {comp : Compiler} {cwd : Path} :
    ∀ {l : List Src} {fs fs1 : FS} {n : Nat},
      runFiles comp cwd fs l = .ok fs1 n → globShaders cwd fs1 = globShaders cwd fs := by
  intro l
  induction l with
  | nil =>
    intro fs fs1 n h
    simp only [runFiles] at h
    injection h with h1 _
    rw [h1]
  | cons t l ih =>
    intro fs fs1 n h
    obtain ⟨fs', c, m, hc, hr, _⟩ := runFiles_cons_ok_inv h
    rw [ih hr, globShaders_compile hc]

theorem glsl_of_mem_globShaders {cwd : Path} {fs : FS} {s : Src}
    (h : s ∈ globShaders cwd fs) : hasSuffix s.name glslExt = true := by
  obtain ⟨e, _, hs⟩ := List.mem_filterMap.mp h
  unfold toSrcOpt at hs
  cases hr : relUnder cwd e.1 with
  | none => rw [hr] at hs; exact Option.noConfusion hs
  | some dn =>
    obtain ⟨ds, n⟩ := dn
    rw [hr] at hs
    dsimp only at hs
    by_cases hm : globMatch ds n = true
    · rw [if_pos hm] at hs
      injection hs with hs1
      unfold globMatch at hm
      rw [← hs1]
      exact hm
    · rw [if_neg hm] at hs
      exact Option.noConfusion hs

theorem run_ok_inv {env : Env} {comp : Compiler} {d cwd : Path} {fs fs1 : FS} {n : Nat}
    (h : run env comp d cwd fs = .ok fs1 n) :
    cwd = d ∧ env.compilerOnPath = true ∧
      runFiles comp cwd fs (globShaders cwd fs ++ globShaders cwd fs) = .ok fs1 n := by
  unfold run at h
  by_cases h1 : cwd = d
  · rw [if_pos h1] at h
    cases h2 : env.compilerOnPath with
    | false =>
      rw [h2] at h
      simp only [Bool.false_eq_true, if_false] at h
      exact Result.noConfusion h
    | true =>
      rw [h2] at h
      simp only [if_true] at h
      exact ⟨h1, rfl, h⟩
  · rw [if_neg h1] at h
    exact Result.noConfusion h

end DTH

namespace DTH

theorem compileInvoke_calls (comp : Compiler) (cwd : Path) (fs : FS) (s : Src)
    (msrc : FileMeta) : (compileInvoke comp cwd fs s msrc).calls = 1 := by
  unfold compileInvoke
  cases hr : comp (srcPath cwd s) (outPath cwd s) with
  | mk e w =>
    dsimp only
    cases w with
    | some w0 =>
      by_cases he : e = 0
      · subst he
        simp only [ne_eq, not_true_eq_false, reduceIte, getFile_setFile_self]
        rfl
      · rw [if_pos he]
        rfl
    | none =>
      by_cases he : e = 0
      · subst he
        simp only [ne_eq, not_true_eq_false, reduceIte]
        cases hg : fs.getFile (outPath cwd s) with
        | none => rfl
        | some w1 => rfl
      · rw [if_pos he]
        rfl

theorem compileInvoke_success {comp : Compiler} {cwd : Path} {fs : FS} {s : Src}
    {msrc w : FileMeta}
    (hc : comp (srcPath cwd s) (outPath cwd s) = (0, some w)) :
    compileInvoke comp cwd fs s msrc =
      .ok (fs.setFile (outPath cwd s) ⟨w.data, msrc.mtime, w.atime⟩) 1 := by
  unfold compileInvoke
  rw [hc]
  simp only [ne_eq, not_true_eq_false, reduceIte, getFile_setFile_self]
  rw [setFile_setFile]

theorem compileInvoke_fail_written {comp : Compiler} {cwd : Path} {fs : FS} {s : Src}
    {msrc w : FileMeta} {e : Int}
    (hc : comp (srcPath cwd s) (outPath cwd s) = (e, some w)) (he : e ≠ 0) :
    compileInvoke comp cwd fs s msrc =
      .error .compileError (fs.setFile (outPath cwd s) w) 1 := by
  unfold compileInvoke
  rw [hc]
  dsimp only
  rw [if_pos he]

theorem compile_shader_calls_of_stale (comp : Compiler) {cwd : Path} {fs : FS} {s : Src}
    {msrc : FileMeta}
    (hsrc : fs.getFile (srcPath cwd s) = some msrc)
    (hst : staleCheck msrc.mtime (fs.getFile (outPath cwd s)) = true) :
    (compile_shader comp cwd fs s).calls = 1 := by
  simp only [compile_shader, getFile_mkdirParents, hsrc, hst, if_true]
  exact compileInvoke_calls comp cwd _ s msrc

theorem compile_shader_stale (comp : Compiler) {cwd : Path} {fs : FS} {s : Src}
    {msrc : FileMeta}
    (hsrc : fs.getFile (srcPath cwd s) = some msrc)
    (hst : staleCheck msrc.mtime (fs.getFile (outPath cwd s)) = true) :
    compile_shader comp cwd fs s =
      compileInvoke comp cwd (mkdirParents fs (outPath cwd s).dropLast) s msrc := by
  simp only [compile_shader, getFile_mkdirParents, hsrc, hst, if_true]

theorem staleCheck_of_no_fresh {msrc : FileMeta} {o : Option FileMeta}
    (h : ∀ mout, o = some mout → mout.mtime ≠ msrc.mtime) :
    staleCheck msrc.mtime o = true := by
  cases o with
  | none => rfl
  | some mout =>
    simp only [staleCheck, decide_eq_true_eq]
    exact fun hh => h mout rfl hh.symm

end DTH

namespace DTH

/-- C1: for a matched source file, `compile_shader` skips the compiler
invocation if and only if the output path already exists and its modification
timestamp is exactly equal to the source's; if the output does not exist or
the two timestamps differ in any direction, exactly one compile invocation
occurs. -/
theorem skip_iff_timestamps_equal (comp : Compiler) (cwd : Path) (fs : FS) (s : Src)
    (msrc : FileMeta) (hsrc : fs.getFile (srcPath cwd s) = some msrc) :
    ((compile_shader comp cwd fs s).calls = 0 ↔
      ∃ mout, fs.getFile (outPath cwd s) = some mout ∧ mout.mtime = msrc.mtime) ∧
    ((compile_shader comp cwd fs s).calls = 1 ↔
      ¬ ∃ mout, fs.getFile (outPath cwd s) = some mout ∧ mout.mtime = msrc.mtime) := by
  cases hout : fs.getFile (outPath cwd s) with
  | none =>
    have h1 : (compile_shader comp cwd fs s).calls = 1 :=
      compile_shader_calls_of_stale comp hsrc (by rw [hout]; rfl)
    rw [h1]
    constructor
    · constructor
      · intro hh
        exact absurd hh (by decide)
      · rintro ⟨mout, hm, -⟩
        exact Option.noConfusion hm
    · constructor
      · rintro - ⟨mout, hm, -⟩
        exact Option.noConfusion hm
      · intro _
        rfl
  | some mout =>
    by_cases heq : mout.mtime = msrc.mtime
    · have h0 : compile_shader comp cwd fs s =
          .ok (mkdirParents fs (outPath cwd s).dropLast) 0 :=
        compile_shader_skip comp hsrc hout heq
      rw [h0]
      show ((0 : Nat) = 0 ↔ _) ∧ ((0 : Nat) = 1 ↔ _)
      refine ⟨⟨fun _ => ⟨mout, rfl, heq⟩, fun _ => rfl⟩, ?_, ?_⟩
      · intro hh
        exact absurd hh (by decide)
      · intro hno
        exact absurd ⟨mout, rfl, heq⟩ hno
    · have hst : staleCheck msrc.mtime (fs.getFile (outPath cwd s)) = true := by
        rw [hout]
        simp only [staleCheck, decide_eq_true_eq]
        exact fun hh => heq hh.symm
      have h1 := compile_shader_calls_of_stale comp hsrc hst
      rw [h1]
      constructor
      · constructor
        · intro hh
          exact absurd hh (by decide)
        · rintro ⟨mout', hm, hmt⟩
          injection hm with hm1
          rw [← hm1] at hmt
          exact absurd hmt heq
      · constructor
        · rintro - ⟨mout', hm, hmt⟩
          injection hm with hm1
          rw [← hm1] at hmt
          exact absurd hmt heq
        · intro _
          rfl

/-- Witness for C1: in a state where the output exists with the source's
modification time, the equivalence holds at a concrete input. -/
theorem skip_iff_timestamps_equal_witness :
    ((compile_shader compOkW cwdW fsUpW sW).calls = 0 ↔
      ∃ mout, fsUpW.getFile (outPath cwdW sW) = some mout ∧ mout.mtime = mSrcW.mtime) ∧
    ((compile_shader compOkW cwdW fsUpW sW).calls = 1 ↔
      ¬ ∃ mout, fsUpW.getFile (outPath cwdW sW) = some mout ∧ mout.mtime = mSrcW.mtime) :=
  skip_iff_timestamps_equal compOkW cwdW fsUpW sW mSrcW (by decide)

/-- C2: running the build twice in a row with sources unchanged yields zero
compiler invocations on the second run (every file is skipped as up to date). -/
theorem second_run_no_invocations (env : Env) (comp : Compiler) (d cwd : Path)
    (fs fs1 : FS) (n : Nat) (h : run env comp d cwd fs = .ok fs1 n) :
    run env comp d cwd fs1 = .ok fs1 0 := by
  obtain ⟨hcwd, hon, hrf⟩ := run_ok_inv h
  subst hcwd
  have hstable := globShaders_runFiles hrf
  have hnames : ∀ t ∈ globShaders cwd fs ++ globShaders cwd fs,
      hasSuffix t.name glslExt = true := by
    intro t ht
    rcases List.mem_append.mp ht with h' | h' <;> exact glsl_of_mem_globShaders h'
  have hgood := runFiles_good hnames hrf
  unfold run
  rw [if_pos rfl, hon, if_pos rfl, hstable]
  exact runFiles_all_skip hgood

/-- Witness for C2: a concrete first run compiles once; the second run over
the resulting state performs zero invocations. -/
theorem second_run_no_invocations_witness : run envW compOkW cwdW cwdW fs1W = .ok fs1W 0 :=
  second_run_no_invocations envW compOkW cwdW cwdW fsW fs1W 1 (by decide)

/-- C3: immediately after a successful compile of a source with metadata
`msrc` writing `w` at the output, the output's modification timestamp equals
the source's, while its access timestamp is the just-written file's `w.atime`. -/
theorem timestamp_propagation (comp : Compiler) (cwd : Path) (fs : FS) (s : Src)
    (msrc w : FileMeta)
    (hglsl : hasSuffix s.name glslExt = true)
    (hsrc : fs.getFile (srcPath cwd s) = some msrc)
    (hstale : ∀ mout, fs.getFile (outPath cwd s) = some mout → mout.mtime ≠ msrc.mtime)
    (hcomp : comp (srcPath cwd s) (outPath cwd s) = (0, some w)) :
    ∃ fs' msrc', compile_shader comp cwd fs s = .ok fs' 1 ∧
      fs'.getFile (srcPath cwd s) = some msrc' ∧
      fs'.getFile (outPath cwd s) = some ⟨w.data, msrc'.mtime, w.atime⟩ ∧
      msrc'.mtime = msrc.mtime := by
  have hst := staleCheck_of_no_fresh hstale
  have hcs := compile_shader_stale comp hsrc hst
  rw [compileInvoke_success hcomp] at hcs
  refine ⟨_, msrc, hcs, ?_, getFile_setFile_self _ _ _, rfl⟩
  rw [getFile_setFile_ne _ _ _ _ (srcPath_ne_outPath cwd cwd s s hglsl)]
  exact hsrc

/-- Witness for C3: a concrete fresh compile leaves the output with the
source's modification time 3 and the written access time 13. -/
theorem timestamp_propagation_witness :
    ∃ fs' msrc', compile_shader compOkW cwdW fsW sW = .ok fs' 1 ∧
      fs'.getFile (srcPath cwdW sW) = some msrc' ∧
      fs'.getFile (outPath cwdW sW) = some ⟨(7 : Nat), msrc'.mtime, (13 : Int)⟩ ∧
      msrc'.mtime = mSrcW.mtime :=
  timestamp_propagation compOkW cwdW fsW sW mSrcW ⟨7, 11, 13⟩ (by decide) (by decide)
    (fun mout hm => by
      rw [(by decide : fsW.getFile (outPath cwdW sW) = none)] at hm
      exact Option.noConfusion hm)
    rfl

/-- C4 counterexample: when the compiler executable is not on the search path,
the startup probe's failure is not swallowed: the run aborts immediately with
the probe's FileNotFoundError, before processing any file, contradicting the
claim that any failure of the probe itself is tolerated. -/
theorem probe_not_found_aborts :
    run ⟨false, 7⟩ compOkW cwdW cwdW fsW = .error .execNotFound fsW 0 := by decide

/-- C4 amended: the probe's exit status is discarded, so a probe that merely
returns a non-zero exit code is tolerated and the run proceeds to the
enumeration loop; but if the executable cannot be found, the probe's error
propagates and aborts the run before any file is processed. -/
theorem probe_exit_ignored_not_found_aborts (e : Int) (comp : Compiler) (d : Path)
    (fs : FS) :
    run ⟨true, e⟩ comp d d fs =
      runFiles comp d fs (globShaders d fs ++ globShaders d fs) ∧
    run ⟨false, e⟩ comp d d fs = .error .execNotFound fs 0 := by
  unfold run
  constructor
  · rw [if_pos rfl]
    rfl
  · rw [if_pos rfl]
    rfl

/-- C5: started from any working directory other than the script's own
directory, the run fails immediately with the configuration error, with the
filesystem state unchanged and zero compiler invocations. -/
theorem wrong_directory_fails_fast (env : Env) (comp : Compiler) (d cwd : Path)
    (fs : FS) (h : cwd ≠ d) :
    run env comp d cwd fs = .error .configError fs 0 := by
  unfold run
  rw [if_neg h]

/-- Witness for C5: a concrete wrong working directory aborts with the state
untouched. -/
theorem wrong_directory_fails_fast_witness :
    run envW compOkW cwdW cwdBadW fsW = .error .configError fsW 0 :=
  wrong_directory_fails_fast envW compOkW cwdW cwdBadW fsW (by decide)

/-- C6: when the compiler exits non-zero on a file, the run halts at that file
with a fatal compile error after exactly one invocation: no later file in the
list is processed, and the partial output `w` written by the failing
invocation is left in place. -/
theorem compile_failure_halts_run (comp : Compiler) (cwd : Path) (fs : FS) (s : Src)
    (rest : List Src) (msrc w : FileMeta) (e : Int)
    (hsrc : fs.getFile (srcPath cwd s) = some msrc)
    (hstale : ∀ mout, fs.getFile (outPath cwd s) = some mout → mout.mtime ≠ msrc.mtime)
    (hcomp : comp (srcPath cwd s) (outPath cwd s) = (e, some w))
    (he : e ≠ 0) :
    ∃ fs1, runFiles comp cwd fs (s :: rest) = .error .compileError fs1 1 ∧
      fs1.getFile (outPath cwd s) = some w := by
  have hst := staleCheck_of_no_fresh hstale
  have hcs := compile_shader_stale comp hsrc hst
  rw [compileInvoke_fail_written hcomp he] at hcs
  refine ⟨(mkdirParents fs (outPath cwd s).dropLast).setFile (outPath cwd s) w, ?_,
    getFile_setFile_self _ _ _⟩
  simp only [runFiles, hcs]

/-- Witness for C6: with two sources and a failing compiler stub, the run
stops after the first file's single invocation and leaves the partial output. -/
theorem compile_failure_halts_run_witness :
    ∃ fs1, runFiles compFailW cwdW fsTwoW [sW, sW2] = .error .compileError fs1 1 ∧
      fs1.getFile (outPath cwdW sW) = some ⟨(5 : Nat), (21 : Int), (22 : Int)⟩ :=
  compile_failure_halts_run compFailW cwdW fsTwoW sW [sW2] mSrcW ⟨5, 21, 22⟩ 2
    (by decide)
    (fun mout hm => by
      rw [(by decide : fsTwoW.getFile (outPath cwdW sW) = none)] at hm
      exact Option.noConfusion hm)
    rfl
    (by decide)

/-- C7: for a source at relative path `dirs/name` under the working directory,
the output path is the fixed sibling root `cwd.parent/res/shaders` followed by
the same directory components, with the name extended by the fixed `.spv`
suffix (pathlib's `with_suffix(suffix + '.spv')` amounts to appending `.spv`). -/
theorem output_path_mirrors_source (cwd : Path) (s : Src) :
    outPath cwd s = cwd.dropLast ++ [resDir, shadersDir] ++ s.dirs ++ [s.name ++ spvExt] := by
  unfold outPath
  rw [outName_eq]

/-- C8 counterexample: a source older than its output (mtime 5 versus 9, so
not newer) is nevertheless recompiled: the invocation count is 1, refuting
the claim that recompilation occurs only when the source is newer. -/
theorem older_source_still_recompiled :
    (compile_shader compOkW cwdW fsOldW sW).calls = 1 ∧
      fsOldW.getFile (srcPath cwdW sW) = some ⟨0, 5, 0⟩ ∧
      fsOldW.getFile (outPath cwdW sW) = some ⟨0, 9, 0⟩ ∧ (5 : Int) < 9 := by decide

/-- C8 amended: recompilation occurs if and only if the output is missing or
its modification timestamp differs from the source's in either direction; a
source whose modification time equals its output's is not recompiled. -/
theorem recompile_iff_timestamps_differ (comp : Compiler) (cwd : Path) (fs : FS)
    (s : Src) (msrc : FileMeta) (hsrc : fs.getFile (srcPath cwd s) = some msrc) :
    (compile_shader comp cwd fs s).calls = 1 ↔
      ∀ mout, fs.getFile (outPath cwd s) = some mout → mout.mtime ≠ msrc.mtime := by
  cases hout : fs.getFile (outPath cwd s) with
  | none =>
    have h1 : (compile_shader comp cwd fs s).calls = 1 :=
      compile_shader_calls_of_stale comp hsrc (by rw [hout]; rfl)
    rw [h1]
    constructor
    · intro _ mout hm
      exact Option.noConfusion hm
    · intro _
      rfl
  | some mout =>
    by_cases heq : mout.mtime = msrc.mtime
    · have h0 : compile_shader comp cwd fs s =
          .ok (mkdirParents fs (outPath cwd s).dropLast) 0 :=
        compile_shader_skip comp hsrc hout heq
      rw [h0]
      show (0 : Nat) = 1 ↔ _
      constructor
      · intro hh
        exact absurd hh (by decide)
      · intro hall
        exact absurd heq (hall mout rfl)
    · have hst : staleCheck msrc.mtime (fs.getFile (outPath cwd s)) = true := by
        rw [hout]
        simp only [staleCheck, decide_eq_true_eq]
        exact fun hh => heq hh.symm
      rw [compile_shader_calls_of_stale comp hsrc hst]
      constructor
      · intro _ mout' hm
        injection hm with hm1
        rw [← hm1]
        exact heq
      · intro _
        rfl

/-- Witness for C8's amended claim: the equivalence evaluated in the state
where the source is older than its output. -/
theorem recompile_iff_timestamps_differ_witness :
    (compile_shader compOkW cwdW fsOldW sW).calls = 1 ↔
      ∀ mout, fsOldW.getFile (outPath cwdW sW) = some mout →
        mout.mtime ≠ FileMeta.mtime ⟨0, 5, 0⟩ :=
  recompile_iff_timestamps_differ compOkW cwdW fsOldW sW ⟨0, 5, 0⟩ (by decide)

/-- C9: duplicate enumeration of the same source file is harmless: if one
processing of a file succeeds, processing the same file again in the same run
skips the compiler invocation and leaves the whole state unchanged, because
timestamp propagation made the output's modification time equal to the
source's. -/
theorem duplicate_processing_skips (comp : Compiler) (cwd : Path) (fs fs1 : FS)
    (s : Src) (c : Nat) (hglsl : hasSuffix s.name glslExt = true)
    (h : compile_shader comp cwd fs s = .ok fs1 c) :
    compile_shader comp cwd fs1 s = .ok fs1 0 := by
  obtain ⟨⟨msrc, mout, h1, h2, h3⟩, hd⟩ := good_self hglsl h
  have hskip := compile_shader_skip comp h1 h2 h3
  rw [mkdirParents_eq_self hd] at hskip
  exact hskip

/-- Witness for C9: after a concrete first compile of `a.glsl`, the second
processing of the same file skips and leaves the state `fs1W` unchanged. -/
theorem duplicate_processing_skips_witness :
    compile_shader compOkW cwdW fs1W sW = .ok fs1W 0 :=
  duplicate_processing_skips compOkW cwdW fsW fs1W sW 1 (by decide) (by decide)

/-- C10: when the output already exists with the source's modification time,
`compile_shader` performs no compiler invocation and leaves every file (the
output's content and timestamps included) unchanged, yet it still creates all
missing ancestor directories of the output path, because directory creation
happens unconditionally before the staleness check. -/
theorem skip_still_creates_directories (comp : Compiler) (cwd : Path) (fs : FS)
    (s : Src) (msrc mout : FileMeta)
    (hsrc : fs.getFile (srcPath cwd s) = some msrc)
    (hout : fs.getFile (outPath cwd s) = some mout)
    (heq : mout.mtime = msrc.mtime) :
    ∃ fs', compile_shader comp cwd fs s = .ok fs' 0 ∧ fs'.files = fs.files ∧
      ∀ q ∈ ancestorsOf (outPath cwd s).dropLast, q ∈ fs'.dirs :=
  ⟨_, compile_shader_skip comp hsrc hout heq, rfl,
    fun _ hq => mem_dirs_mkdirParents_ancestor hq⟩

/-- Witness for C10: in the up-to-date state with no directories yet, the
processing skips the compile, keeps the files, and creates the ancestors. -/
theorem skip_still_creates_directories_witness :
    ∃ fs', compile_shader compOkW cwdW fsUpW sW = .ok fs' 0 ∧ fs'.files = fsUpW.files ∧
      ∀ q ∈ ancestorsOf (outPath cwdW sW).dropLast, q ∈ fs'.dirs :=
  skip_still_creates_directories compOkW cwdW fsUpW sW mSrcW ⟨9, 3, 8⟩ (by decide)
    (by decide) (by decide)

end DTH
